import Mathlib

/-!
Shallow embedding of the `next-cool-cache` core: the schema classifier
(`schema-utils.ts`), the tag renderer (`tag-builder.ts`, embedded-parameter
format included) and the parameter-accumulating tree walk of the
embedded-format `create-cache` implementation.

Modelling conventions:
* a JavaScript `Record<string, string>` of parameter values is an association
  list `PMap` in insertion order; `params[p]` is first-match lookup;
  `Object.values` is `List.map Prod.snd`;
* a JavaScript `Map<number, string[]>` (`paramsBySegment`) is an association
  list `PBS` in insertion order; `Map.get` is first-match lookup and
  `Map.set` replaces in place or appends (`setPbs`);
* schema values (`unknown` in TypeScript) are the inductive `SchemaVal`;
  arrays appear in schemas only as `_params` string arrays, so the array
  constructor carries a list of strings.
-/

namespace NextCoolCache

/-- JS-like runtime values a schema position can hold (`unknown` in the
TypeScript source). `vobj` is an object as an insertion-ordered association
list; `varr` is an array of strings (the shape `_params` arrays take). -/
inductive SchemaVal : Type where
  | vnull : SchemaVal
  | vbool : Bool → SchemaVal
  | vnum : Int → SchemaVal
  | vstr : String → SchemaVal
  | varr : List String → SchemaVal
  | vobj : List (String × SchemaVal) → SchemaVal

/-- Parameter-value map: JS `Record<string, string>` in insertion order. -/
abbrev PMap := List (String × String)

/-- Model of `paramsBySegment`: JS `Map<number, string[]>` in insertion order. -/
abbrev PBS := List (Nat × List String)

/-- Model of `params[p]`: first-match lookup in a JS record. -/
def lookupP : PMap → String → Option String
  | [], _ => none
  | (k, v) :: rest, n => if k = n then some v else lookupP rest n

/-- Model of `paramsBySegment.get(i)`: first-match lookup in a JS `Map`. -/
def lookupPbs : PBS → Nat → Option (List String)
  | [], _ => none
  | (k, v) :: rest, i => if k = i then some v else lookupPbs rest i

/-- Model of `map.set(i, v)`: replace the value of an existing key in place, or
append a new entry, as a JS `Map` does. -/
def setPbs : PBS → Nat → List String → PBS
  | [], i, v => [(i, v)]
  | (k, w) :: rest, i, v =>
      if k = i then (i, v) :: rest else (k, w) :: setPbs rest i v

/-- Model of `list.join(sep)` on an array of strings. -/
def joinSep (sep : String) : List String → String
  | [] => ""
  | [s] => s
  | s :: rest => s ++ sep ++ joinSep sep rest

/-! ### tag-builder.ts, flat (legacy) format -/

/-- Model of `buildTag(path, params)`: join the path with `/`; if the record has any
values, append `:` and the values joined with `:`. -/
def buildTag (path : List String) (params : PMap) : String :=
  let basePath := joinSep ("/") path
  let paramValues := params.map Prod.snd
  if paramValues.length = 0 then basePath
  else basePath ++ ":" ++ joinSep (":") paramValues

/-- Model of `buildAncestorTags(path)`: for `i` from `1` to `path.length - 1`, the
join of the first `i` segments. -/
def buildAncestorTags (path : List String) : List String :=
  (List.range path.length).tail.map (fun i => joinSep ("/") (path.take i))

/-- Model of `buildScopedTag(scope, tag)`. -/
def buildScopedTag (scope tag : String) : String :=
  scope ++ "/" ++ tag

/-! ### tag-builder.ts, embedded-parameter format -/

/-- One segment of the `.map((segment, i) => ...)` callback inside
`buildTagWithEmbeddedParams`: look up the parameter names bound to index `i`, keep the supplied
values (`.map(p => params[p]).filter(v => v !== undefined)`), and append them
to the segment when any survive. -/
def renderSegment (pbs : PBS) (params : PMap) (seg : String) (i : Nat) : String :=
  let segmentParams := (lookupPbs pbs i).getD []
  let paramValues := segmentParams.filterMap (fun p => lookupP params p)
  if paramValues.isEmpty then seg
  else seg ++ ":" ++ joinSep (":") paramValues

/-- Model of `pathSegments.map((segment, i) => ...)` with the running index made
explicit. -/
def renderSegmentsFrom (pbs : PBS) (params : PMap) : List String → Nat → List String
  | [], _ => []
  | seg :: rest, i => renderSegment pbs params seg i :: renderSegmentsFrom pbs params rest (i + 1)

/-- Model of `buildTagWithEmbeddedParams(pathSegments, paramsBySegment, params)`. -/
def buildTagWithEmbeddedParams (path : List String) (pbs : PBS) (params : PMap) : String :=
  joinSep ("/") (renderSegmentsFrom pbs params path 0)

/-- Model of `buildAncestorTagsWithEmbeddedParams`: for `i` from `1` to
`path.length - 1`, render the first `i` segments with the same
`paramsBySegment` and values. -/
def buildAncestorTagsWithEmbeddedParams (path : List String) (pbs : PBS) (params : PMap) :
    List String :=
  (List.range path.length).tail.map
    (fun i => buildTagWithEmbeddedParams (path.take i) pbs params)

/-- The `new Map(); for (const [index, names] of paramsBySegment)
scoped.set(index + scopePath.length, names)` re-indexing loop. -/
def shiftPbs (pbs : PBS) (n : Nat) : PBS :=
  pbs.foldl (fun acc e => setPbs acc (e.1 + n) e.2) []

/-- Model of `buildAllTagsWithEmbeddedParams(resourcePath, scopePath, paramsBySegment,
params)`: scoped full tag, reversed scoped ancestors, unscoped full tag,
reversed unscoped ancestors. -/
def buildAllTagsWithEmbeddedParams (resourcePath scopePath : List String)
    (pbs : PBS) (params : PMap) : List String :=
  let fullPath := scopePath ++ resourcePath
  let scopedPbs := shiftPbs pbs scopePath.length
  let scopedKey := buildTagWithEmbeddedParams fullPath scopedPbs params
  let scopedAncestors := buildAncestorTagsWithEmbeddedParams fullPath scopedPbs params
  let unscopedKey := buildTagWithEmbeddedParams resourcePath pbs params
  let unscopedAncestors := buildAncestorTagsWithEmbeddedParams resourcePath pbs params
  scopedKey :: (scopedAncestors.reverse ++ unscopedKey :: unscopedAncestors.reverse)

/-- Model of `buildUnscopedTagsWithEmbeddedParams(resourcePath, paramsBySegment,
params)`: unscoped full tag then reversed unscoped ancestors. -/
def buildUnscopedTagsWithEmbeddedParams (resourcePath : List String)
    (pbs : PBS) (params : PMap) : List String :=
  let resourceKey := buildTagWithEmbeddedParams resourcePath pbs params
  let resourceAncestors := buildAncestorTagsWithEmbeddedParams resourcePath pbs params
  resourceKey :: resourceAncestors.reverse

/-! ### schema-utils.ts -/

/-- Model of `Object.keys(value)` on a schema value: key list of an object in
insertion order; decimal index strings for an array; `[]` otherwise (the
non-object cases never reach `Object.keys` in the source — the `typeof`
guards return first). -/
def objectKeys : SchemaVal → List String
  | .vobj kvs => kvs.map Prod.fst
  | .varr ss => (List.range ss.length).map Nat.repr
  | _ => []

/-- Model of `isLeafNode(value)`: `false` for anything that is not a non-null object;
otherwise `true` iff the object has no keys or its only key is `_params`. -/
def isLeafNode (value : SchemaVal) : Bool :=
  match value with
  | .vnull => false
  | .vbool _ => false
  | .vnum _ => false
  | .vstr _ => false
  | v =>
      match objectKeys v with
      | [] => true
      | [k] => k = "_params"
      | _ => false

/-- Model of `getParams(node)`: the `_params` array when the node is a non-null object
whose `_params` property is an array; `[]` otherwise. -/
def getParams (node : SchemaVal) : List String :=
  match node with
  | .vobj kvs =>
      match kvs.lookup ("_params") with
      | some (.varr ss) => ss
      | _ => []
  | _ => []

/-- Model of `getChildKeys(node)`: object keys with `_params` filtered out; `[]` for
non-objects. -/
def getChildKeys (node : SchemaVal) : List String :=
  match node with
  | .vnull => []
  | .vbool _ => []
  | .vnum _ => []
  | .vstr _ => []
  | v => (objectKeys v).filter (fun key => key ≠ "_params")

/-- Model of `schema[key]` for a key drawn from `getChildKeys`: property lookup on an
object (never `_params`, which the walker filters out), element lookup on an
array by decimal index, nothing otherwise. -/
def childAt : SchemaVal → String → Option SchemaVal
  | .vobj kvs, key => if key = "_params" then none else kvs.lookup key
  | .varr ss, key =>
      ((ss.enum.find? (fun p => Nat.repr p.1 = key)).map (fun p => SchemaVal.vstr p.2))
  | _, _ => none

/-- Resolve a root-to-node key path through `childAt`. -/
def nodeAt : SchemaVal → List String → Option SchemaVal
  | node, [] => some node
  | node, key :: rest =>
      match childAt node key with
      | none => none
      | some child => nodeAt child rest

/-- Values that are not structured schema nodes in the sense of the spec:
everything failing the JS test `typeof value === "object"`, together with
`null` (which passes `typeof` but is excluded by the `value !== null`
guards). Arrays and objects are the structured values. -/
def isUnstructured (v : SchemaVal) : Bool :=
  match v with
  | .vnull => true
  | .vbool _ => true
  | .vnum _ => true
  | .vstr _ => true
  | .varr _ => false
  | .vobj _ => false

/-! ### create-cache (embedded-parameter implementation)

The leaf/branch node constructors close over `resourcePath`, `scopePath` and
the accumulated `paramsBySegment`; each operation then hands a tag (or tag
list) to one of the injected primitives.  The functions below compute exactly
the argument those closures pass on. -/

/-- JS `a || b` on strings (with `undefined` modelled as `""`, which is
equally falsy). -/
def jsOr (a b : String) : String :=
  if a = "" then b else a

/-- Tag list passed to the register-tags primitive by
`buildLeafNodeImpl(...).cacheTag(p)` (embedded format). -/
def leafCacheTagTags (resourcePath scopePath : List String) (pbs : PBS) (p : PMap) :
    List String :=
  buildAllTagsWithEmbeddedParams resourcePath scopePath pbs p

/-- Model of `(tag, "max")` passed to the stale-invalidate primitive by
`buildBranchNodeImpl(...).revalidateTag(p)`:
`revalidateTag(tag || scopePath[0] || "root", "max")` with
`tag = buildTagWithEmbeddedParams(scopePath ++ resourcePath, scopedPbs, p)`. -/
def branchRevalidateArgs (resourcePath scopePath : List String) (pbs : PBS) (p : PMap) :
    String × String :=
  let scopedPbs := shiftPbs pbs scopePath.length
  let tag := buildTagWithEmbeddedParams (scopePath ++ resourcePath) scopedPbs p
  (jsOr tag (jsOr (scopePath.headD ("")) "root"), "max")

/-- Tag passed to the immediate-expire primitive by
`buildBranchNodeImpl(...).updateTag(p)`. -/
def branchUpdateArg (resourcePath scopePath : List String) (pbs : PBS) (p : PMap) : String :=
  let scopedPbs := shiftPbs pbs scopePath.length
  let tag := buildTagWithEmbeddedParams (scopePath ++ resourcePath) scopedPbs p
  jsOr tag (jsOr (scopePath.headD ("")) "root")

/-- Model of `(tag, "max")` passed to the stale-invalidate primitive by the inline
`revalidateTag` of `buildUnscopedBranch`: `revalidateTag(tag || "root", "max")`. -/
def unscopedBranchRevalidateArgs (resourcePath : List String) (pbs : PBS) (p : PMap) :
    String × String :=
  (jsOr (buildTagWithEmbeddedParams resourcePath pbs p) "root", "max")

/-- Tag passed to the immediate-expire primitive by the inline `updateTag`
of `buildUnscopedBranch`. -/
def unscopedBranchUpdateArg (resourcePath : List String) (pbs : PBS) (p : PMap) : String :=
  jsOr (buildTagWithEmbeddedParams resourcePath pbs p) "root"

/-! ### The parameter accumulator (walk of `buildScopedBranch` /
`buildUnscopedBranch`) -/

/-- The `newParamsBySegment` computation on entering a branch call: copy the
map and, when the node declares parameters and the current path is non-empty,
bind them to the last segment index. -/
def branchStep (node : SchemaVal) (resourcePath : List String) (pbs : PBS) : PBS :=
  let branchParams := getParams node
  if branchParams.length > 0 ∧ resourcePath.length > 0 then
    setPbs pbs (resourcePath.length - 1) branchParams
  else pbs

/-- The `leafParamsBySegment` computation for a leaf child at `childPath`:
copy the map and, when the leaf declares parameters, bind them to the leaf
segment index. -/
def leafStep (leafSchema : SchemaVal) (childPath : List String) (pbs : PBS) : PBS :=
  let leafParams := getParams leafSchema
  if leafParams.length > 0 then setPbs pbs (childPath.length - 1) leafParams
  else pbs

/-- Model of `paramsBySegment` captured by the cache node reached from `node` (called
with path `resourcePath` and accumulated map `pbs`) by following `keys`:
mirrors the recursion of `buildScopedBranch`/`buildUnscopedBranch`, which
applies `branchStep` on entry, hands leaf children to `leafStep`, and
recurses into branch children. `none` when the key path does not resolve to
a node the walker builds. -/
def pbsAt (node : SchemaVal) (resourcePath : List String) (pbs : PBS) :
    List String → Option PBS
  | [] => some (branchStep node resourcePath pbs)
  | key :: rest =>
      let newPbs := branchStep node resourcePath pbs
      match childAt node key with
      | none => none
      | some child =>
          if isLeafNode child then
            if rest.isEmpty then some (leafStep child (resourcePath ++ [key]) newPbs)
            else none
          else pbsAt child (resourcePath ++ [key]) newPbs rest

example : buildTag ["users", "byId"] [("id", "123")] = "users/byId:123" := by decide
example : buildAncestorTags ["feedback", "threads", "byId"] = ["feedback", "feedback/threads"] := by
  decide
example :
    buildTagWithEmbeddedParams ["userPrivateData", "myWorkspaces", "byWorkspaceId"]
      [(0, ["userId"]), (2, ["workspaceId"])] [("userId", "u1")]
      = "userPrivateData:u1/myWorkspaces/byWorkspaceId" := by decide
example :
    buildAllTagsWithEmbeddedParams ["users", "byId"] ["admin"] [(1, ["id"])] [("id", "123")]
      = ["admin/users/byId:123", "admin/users", "admin", "users/byId:123", "users"] := by decide

/-! ### Supporting lemmas -/

theorem lookupPbs_setPbs (pbs : PBS) (j : Nat) (v : List String) (i : Nat) :
    lookupPbs (setPbs pbs j v) i = if i = j then some v else lookupPbs pbs i := by
  induction pbs with
  | nil =>
      by_cases hij : i = j
      · subst hij; simp [setPbs, lookupPbs]
      · simp [setPbs, lookupPbs, hij, Ne.symm hij]
  | cons e rest ih =>
      obtain ⟨k, w⟩ := e
      by_cases hkj : k = j
      · subst hkj
        by_cases hik : i = k <;> simp [setPbs, lookupPbs, hik, eq_comm]
      · by_cases hik : k = i
        · subst hik
          simp [setPbs, lookupPbs, hkj, Ne.symm hkj]
        · simp [setPbs, lookupPbs, hkj, hik, ih]

theorem mem_setPbs {pbs : PBS} {j : Nat} {v : List String} {e : Nat × List String}
    (h : e ∈ setPbs pbs j v) : e ∈ pbs ∨ e = (j, v) := by
  induction pbs with
  | nil => simp [setPbs] at h; simp [h]
  | cons f rest ih =>
      obtain ⟨k, w⟩ := f
      by_cases hkj : k = j
      · subst hkj
        simp [setPbs] at h
        rcases h with h | h
        · right; simp [h]
        · left; simp [h]
      · simp [setPbs, hkj] at h
        rcases h with h | h
        · left; simp [h]
        · rcases ih h with h2 | h2
          · left; simp [h2]
          · right; exact h2

theorem lookupPbs_mem {pbs : PBS} {i : Nat} {v : List String}
    (h : lookupPbs pbs i = some v) : (i, v) ∈ pbs := by
  induction pbs with
  | nil => simp [lookupPbs] at h
  | cons e rest ih =>
      obtain ⟨k, w⟩ := e
      by_cases hk : k = i
      · subst hk
        simp [lookupPbs] at h
        simp [h]
      · simp [lookupPbs, hk] at h
        simp [ih h]

theorem length_joinSep (sep : String) :
    ∀ l : List String,
      (joinSep sep l).length = (l.map String.length).sum + sep.length * (l.length - 1)
  | [] => by simp [joinSep]
  | [s] => by simp [joinSep]
  | s :: t :: rest => by
      have ih := length_joinSep sep (t :: rest)
      show (s ++ sep ++ joinSep sep (t :: rest)).length = _
      rw [String.length_append, String.length_append, ih]
      simp only [List.map_cons, List.sum_cons, List.length_cons, Nat.add_sub_cancel]
      ring

theorem joinSep_slash_ne_empty :
    ∀ {l : List String}, l ≠ [] → (∀ s ∈ l, s ≠ "") → joinSep ("/") l ≠ ""
  | [], hne, _ => absurd rfl hne
  | [s], _, h => by simpa [joinSep] using h s (by simp)
  | s :: t :: rest, _, _ => by
      intro he
      have hlen : (joinSep ("/") (s :: t :: rest)).length = 0 := by rw [he]; rfl
      rw [length_joinSep] at hlen
      have hsl : ("/").length = 1 := rfl
      rw [hsl] at hlen
      simp only [List.length_cons, Nat.add_sub_cancel, Nat.one_mul] at hlen
      omega

theorem renderSegment_no_params (pbs : PBS) (seg : String) (i : Nat) :
    renderSegment pbs [] seg i = seg := by
  have h : ((lookupPbs pbs i).getD []).filterMap (fun p => lookupP [] p) = [] :=
    List.filterMap_eq_nil_iff.mpr (fun a _ => rfl)
  simp [renderSegment, h]

theorem renderSegmentsFrom_no_params (pbs : PBS) :
    ∀ (path : List String) (i : Nat), renderSegmentsFrom pbs [] path i = path
  | [], _ => rfl
  | seg :: rest, i => by
      simp [renderSegmentsFrom, renderSegment_no_params,
        renderSegmentsFrom_no_params pbs rest (i + 1)]

theorem buildTagWithEmbeddedParams_no_params (path : List String) (pbs : PBS) :
    buildTagWithEmbeddedParams path pbs [] = joinSep ("/") path := by
  unfold buildTagWithEmbeddedParams
  rw [renderSegmentsFrom_no_params]

theorem length_renderSegmentsFrom (pbs : PBS) (params : PMap) :
    ∀ (path : List String) (i : Nat), (renderSegmentsFrom pbs params path i).length = path.length
  | [], _ => rfl
  | seg :: rest, i => by
      simp [renderSegmentsFrom, length_renderSegmentsFrom pbs params rest (i + 1)]

theorem renderSegmentsFrom_eq_map_range (pbs : PBS) (params : PMap) :
    ∀ (path : List String) (k : Nat),
      renderSegmentsFrom pbs params path k =
        (List.range path.length).map
          (fun j => renderSegment pbs params (path.getD j ("")) (k + j))
  | [], k => by simp [renderSegmentsFrom]
  | seg :: rest, k => by
      rw [show renderSegmentsFrom pbs params (seg :: rest) k =
            renderSegment pbs params seg k :: renderSegmentsFrom pbs params rest (k + 1) from rfl,
        renderSegmentsFrom_eq_map_range pbs params rest (k + 1)]
      simp only [List.length_cons, List.range_succ_eq_map, List.map_cons, List.map_map]
      congr 1
      apply List.map_congr_left
      intro j hj
      simp only [Function.comp_apply, Nat.succ_eq_add_one, List.getD_cons_succ]
      congr 1
      omega

theorem length_range_tail (n : Nat) : ((List.range n).tail).length = n - 1 := by
  simp

theorem getElem?_range_tail {n i : Nat} (h : i < n - 1) :
    ((List.range n).tail)[i]? = some (i + 1) := by
  rw [List.getElem?_tail]
  exact List.getElem?_range (by omega)

theorem length_buildAncestorTags (path : List String) :
    (buildAncestorTags path).length = path.length - 1 := by
  simp [buildAncestorTags]

theorem getElem?_buildAncestorTags (path : List String) {i : Nat} (h : i < path.length - 1) :
    (buildAncestorTags path)[i]? = some (joinSep ("/") (path.take (i + 1))) := by
  unfold buildAncestorTags
  rw [List.getElem?_map, getElem?_range_tail h]
  rfl

theorem length_buildAncestorTagsWithEmbeddedParams (path : List String) (pbs : PBS)
    (params : PMap) :
    (buildAncestorTagsWithEmbeddedParams path pbs params).length = path.length - 1 := by
  simp [buildAncestorTagsWithEmbeddedParams]

theorem getElem?_buildAncestorTagsWithEmbeddedParams (path : List String) (pbs : PBS)
    (params : PMap) {i : Nat} (h : i < path.length - 1) :
    (buildAncestorTagsWithEmbeddedParams path pbs params)[i]? =
      some (buildTagWithEmbeddedParams (path.take (i + 1)) pbs params) := by
  unfold buildAncestorTagsWithEmbeddedParams
  rw [List.getElem?_map, getElem?_range_tail h]
  rfl

theorem renderSegment_def (pbs : PBS) (params : PMap) (seg : String) (i : Nat) :
    renderSegment pbs params seg i =
      if (((lookupPbs pbs i).getD []).filterMap (fun p => lookupP params p)).isEmpty then seg
      else seg ++ ":" ++
        joinSep (":") (((lookupPbs pbs i).getD []).filterMap (fun p => lookupP params p)) := rfl

theorem sum_map_length_add_one (l : List String) :
    (l.map (fun v => v.length + 1)).sum = (l.map String.length).sum + l.length := by
  induction l with
  | nil => rfl
  | cons s rest ih => simp [ih]; omega

theorem length_renderSegment (pbs : PBS) (params : PMap) (seg : String) (i : Nat) :
    (renderSegment pbs params seg i).length =
      seg.length +
        ((((lookupPbs pbs i).getD []).filterMap (fun p => lookupP params p)).map
          (fun v => v.length + 1)).sum := by
  rw [renderSegment_def]
  cases hv : ((lookupPbs pbs i).getD []).filterMap (fun p => lookupP params p) with
  | nil => simp
  | cons v vs =>
      simp only [List.isEmpty_cons, Bool.false_eq_true, if_false]
      rw [String.length_append, String.length_append, length_joinSep,
        sum_map_length_add_one]
      have hcl : (":").length = 1 := rfl
      rw [hcl]
      simp only [List.length_cons, Nat.add_sub_cancel, Nat.one_mul]
      omega

theorem filterMap_sum_le {W V : PMap}
    (hsub : ∀ n val, lookupP W n = some val → lookupP V n = some val) :
    ∀ names : List String,
      ((names.filterMap (fun p => lookupP W p)).map (fun v => v.length + 1)).sum ≤
        ((names.filterMap (fun p => lookupP V p)).map (fun v => v.length + 1)).sum
  | [] => le_refl _
  | n :: rest => by
      have ih := filterMap_sum_le hsub rest
      cases hW : lookupP W n with
      | some v =>
          have hV := hsub n v hW
          simp only [List.filterMap_cons, hW, hV, List.map_cons, List.sum_cons]
          omega
      | none =>
          cases hV : lookupP V n with
          | some w =>
              simp only [List.filterMap_cons, hW, hV, List.map_cons, List.sum_cons]
              omega
          | none =>
              simp only [List.filterMap_cons, hW, hV]
              exact ih

theorem length_renderSegment_le (pbs : PBS) {W V : PMap}
    (hsub : ∀ n val, lookupP W n = some val → lookupP V n = some val)
    (seg : String) (i : Nat) :
    (renderSegment pbs W seg i).length ≤ (renderSegment pbs V seg i).length := by
  rw [length_renderSegment, length_renderSegment]
  exact Nat.add_le_add_left (filterMap_sum_le hsub _) _

theorem sum_map_length_le_of_forall2 {l1 l2 : List String}
    (h : List.Forall₂ (fun a b => a.length ≤ b.length) l1 l2) :
    (l1.map String.length).sum ≤ (l2.map String.length).sum := by
  induction h with
  | nil => exact le_refl _
  | cons hab htail ih =>
      simp only [List.map_cons, List.sum_cons]
      exact Nat.add_le_add hab ih

theorem length_joinSep_le_of_forall2 (sep : String) {l1 l2 : List String}
    (h : List.Forall₂ (fun a b => a.length ≤ b.length) l1 l2) :
    (joinSep sep l1).length ≤ (joinSep sep l2).length := by
  rw [length_joinSep, length_joinSep, h.length_eq]
  exact Nat.add_le_add_right (sum_map_length_le_of_forall2 h) _

theorem renderSegmentsFrom_forall2_le (pbs : PBS) {W V : PMap}
    (hsub : ∀ n val, lookupP W n = some val → lookupP V n = some val) :
    ∀ (path : List String) (k : Nat),
      List.Forall₂ (fun a b => a.length ≤ b.length)
        (renderSegmentsFrom pbs W path k) (renderSegmentsFrom pbs V path k)
  | [], _ => List.Forall₂.nil
  | seg :: rest, k =>
      List.Forall₂.cons (length_renderSegment_le pbs hsub seg k)
        (renderSegmentsFrom_forall2_le pbs hsub rest (k + 1))

theorem filterMap_lookup_congr {W V : PMap} :
    ∀ {names : List String}, (∀ n ∈ names, lookupP W n = lookupP V n) →
      names.filterMap (fun p => lookupP W p) = names.filterMap (fun p => lookupP V p)
  | [], _ => rfl
  | n :: rest, h => by
      rw [List.filterMap_cons, List.filterMap_cons, h n (List.mem_cons_self n rest),
        filterMap_lookup_congr (fun m hm => h m (List.mem_cons_of_mem _ hm))]

theorem renderSegment_congr {W V : PMap} (pbs : PBS) (seg : String) (i : Nat)
    (h : ∀ n ∈ (lookupPbs pbs i).getD [], lookupP W n = lookupP V n) :
    renderSegment pbs W seg i = renderSegment pbs V seg i := by
  rw [renderSegment_def, renderSegment_def, filterMap_lookup_congr h]

theorem renderSegmentsFrom_congr {W V : PMap} (pbs : PBS) :
    ∀ (path : List String) (k : Nat),
      (∀ i, k ≤ i → i < k + path.length →
        ∀ n ∈ (lookupPbs pbs i).getD [], lookupP W n = lookupP V n) →
      renderSegmentsFrom pbs W path k = renderSegmentsFrom pbs V path k
  | [], _, _ => rfl
  | seg :: rest, k, h => by
      show renderSegment pbs W seg k :: renderSegmentsFrom pbs W rest (k + 1) =
        renderSegment pbs V seg k :: renderSegmentsFrom pbs V rest (k + 1)
      rw [renderSegment_congr pbs seg k (h k (le_refl k) (by simp)),
        renderSegmentsFrom_congr pbs rest (k + 1)
          (fun i h1 h2 => h i (by omega) (by simp at h2 ⊢; omega))]

/-! ### Lemmas about the parameter-accumulator walk -/

theorem branchStep_def (node : SchemaVal) (resourcePath : List String) (pbs : PBS) :
    branchStep node resourcePath pbs =
      if (getParams node).length > 0 ∧ resourcePath.length > 0 then
        setPbs pbs (resourcePath.length - 1) (getParams node)
      else pbs := rfl

theorem leafStep_def (leafSchema : SchemaVal) (childPath : List String) (pbs : PBS) :
    leafStep leafSchema childPath pbs =
      if (getParams leafSchema).length > 0 then
        setPbs pbs (childPath.length - 1) (getParams leafSchema)
      else pbs := rfl

theorem pbsAt_nil (node : SchemaVal) (resourcePath : List String) (pbs : PBS) :
    pbsAt node resourcePath pbs [] = some (branchStep node resourcePath pbs) := rfl

theorem pbsAt_cons_none {node : SchemaVal} {key : String} (resourcePath : List String)
    (pbs : PBS) (rest : List String) (hchild : childAt node key = none) :
    pbsAt node resourcePath pbs (key :: rest) = none := by
  simp only [pbsAt, hchild]

theorem pbsAt_cons_some {node child : SchemaVal} {key : String} (resourcePath : List String)
    (pbs : PBS) (rest : List String) (hchild : childAt node key = some child) :
    pbsAt node resourcePath pbs (key :: rest) =
      if isLeafNode child then
        if rest.isEmpty then
          some (leafStep child (resourcePath ++ [key]) (branchStep node resourcePath pbs))
        else none
      else pbsAt child (resourcePath ++ [key]) (branchStep node resourcePath pbs) rest := by
  conv_lhs => rw [pbsAt]
  simp only [hchild]

theorem branchStep_binds (node : SchemaVal) (resourcePath : List String) (pbs : PBS)
    (hps : getParams node ≠ []) (hrp : resourcePath ≠ []) :
    lookupPbs (branchStep node resourcePath pbs) (resourcePath.length - 1) =
      some (getParams node) := by
  rw [branchStep_def,
    if_pos ⟨List.length_pos.mpr hps, List.length_pos.mpr hrp⟩, lookupPbs_setPbs, if_pos rfl]

theorem leafStep_binds (leafSchema : SchemaVal) (childPath : List String) (pbs : PBS)
    (hps : getParams leafSchema ≠ []) :
    lookupPbs (leafStep leafSchema childPath pbs) (childPath.length - 1) =
      some (getParams leafSchema) := by
  rw [leafStep_def, if_pos (List.length_pos.mpr hps), lookupPbs_setPbs, if_pos rfl]

theorem lookupPbs_branchStep_of_lt (node : SchemaVal) (resourcePath : List String) (pbs : PBS)
    {i : Nat} (h : i + 1 < resourcePath.length) :
    lookupPbs (branchStep node resourcePath pbs) i = lookupPbs pbs i := by
  rw [branchStep_def]
  split
  · rw [lookupPbs_setPbs, if_neg (by omega)]
  · rfl

theorem mem_branchStep {node : SchemaVal} {resourcePath : List String} {pbs : PBS}
    {e : Nat × List String} (h : e ∈ branchStep node resourcePath pbs) :
    e ∈ pbs ∨ e.1 + 1 = resourcePath.length := by
  rw [branchStep_def] at h
  split at h
  next hcond =>
    rcases mem_setPbs h with h2 | h2
    · exact Or.inl h2
    · right
      rw [h2]
      show resourcePath.length - 1 + 1 = resourcePath.length
      omega
  next hcond => exact Or.inl h

theorem pbsAt_preserves :
    ∀ (keys : List String) (node : SchemaVal) (resourcePath : List String) (pbs m : PBS),
      pbsAt node resourcePath pbs keys = some m →
      (∀ e ∈ pbs, e.1 + 1 < resourcePath.length) →
      ∀ i ps, lookupPbs pbs i = some ps → lookupPbs m i = some ps
  | [], node, rp, pbs, m, hm, hinv, i, ps, hl => by
      rw [pbsAt_nil] at hm
      have hm2 := Option.some.inj hm
      subst hm2
      have hi := hinv _ (lookupPbs_mem hl)
      rw [lookupPbs_branchStep_of_lt node rp pbs hi]
      exact hl
  | key :: rest, node, rp, pbs, m, hm, hinv, i, ps, hl => by
      have hi := hinv _ (lookupPbs_mem hl)
      have hstep : lookupPbs (branchStep node rp pbs) i = some ps := by
        rw [lookupPbs_branchStep_of_lt node rp pbs hi]
        exact hl
      have hinv2 : ∀ e ∈ branchStep node rp pbs, e.1 + 1 < (rp ++ [key]).length := by
        intro e he
        rcases mem_branchStep he with h2 | h2
        · have := hinv _ h2
          simp only [List.length_append, List.length_cons, List.length_nil]
          omega
        · simp only [List.length_append, List.length_cons, List.length_nil]
          omega
      cases hchild : childAt node key with
      | none =>
          rw [pbsAt_cons_none rp pbs rest hchild] at hm
          exact absurd hm (by simp)
      | some child =>
          rw [pbsAt_cons_some rp pbs rest hchild] at hm
          by_cases hleaf : isLeafNode child
          · rw [if_pos hleaf] at hm
            by_cases hrest : rest.isEmpty
            · rw [if_pos hrest] at hm
              have hm2 := Option.some.inj hm
              subst hm2
              rw [leafStep_def]
              split
              · rw [lookupPbs_setPbs,
                  if_neg (by have := hinv2 _ (lookupPbs_mem hstep); simp at this ⊢; omega)]
                exact hstep
              · exact hstep
            · rw [if_neg hrest] at hm
              exact absurd hm (by simp)
          · rw [if_neg hleaf] at hm
            exact pbsAt_preserves rest child (rp ++ [key]) (branchStep node rp pbs) m hm hinv2
              i ps hstep

theorem lookupPbs_branchStep_cases {node : SchemaVal} {rp : List String} {pbs : PBS}
    {i : Nat} {ps : List String}
    (h : lookupPbs (branchStep node rp pbs) i = some ps) :
    lookupPbs pbs i = some ps ∨ (ps = getParams node ∧ ps ≠ [] ∧ i + 1 = rp.length) := by
  rw [branchStep_def] at h
  split at h
  next hcond =>
    rw [lookupPbs_setPbs] at h
    by_cases hieq : i = rp.length - 1
    · rw [if_pos hieq] at h
      right
      have hps := (Option.some.inj h).symm
      refine ⟨hps, ?_, ?_⟩
      · rw [hps]
        exact List.length_pos.mp hcond.1
      · have := hcond.2
        omega
    · rw [if_neg hieq] at h
      exact Or.inl h
  next => exact Or.inl h

theorem lookupPbs_leafStep_cases {leafSchema : SchemaVal} {childPath : List String} {pbs : PBS}
    {i : Nat} {ps : List String}
    (h : lookupPbs (leafStep leafSchema childPath pbs) i = some ps) :
    lookupPbs pbs i = some ps ∨
      (ps = getParams leafSchema ∧ ps ≠ [] ∧ i = childPath.length - 1) := by
  rw [leafStep_def] at h
  split at h
  next hcond =>
    rw [lookupPbs_setPbs] at h
    by_cases hieq : i = childPath.length - 1
    · rw [if_pos hieq] at h
      right
      have hps := (Option.some.inj h).symm
      refine ⟨hps, ?_, hieq⟩
      rw [hps]
      exact List.length_pos.mp hcond
    · rw [if_neg hieq] at h
      exact Or.inl h
  next => exact Or.inl h

theorem nodeAt_cons {node child : SchemaVal} {key : String} (l : List String)
    (hchild : childAt node key = some child) :
    nodeAt node (key :: l) = nodeAt child l := by
  simp only [nodeAt, hchild]

theorem pbsAt_sound :
    ∀ (keys : List String) (node : SchemaVal) (rp : List String) (pbs m : PBS),
      pbsAt node rp pbs keys = some m →
      ∀ i ps, lookupPbs m i = some ps →
        lookupPbs pbs i = some ps ∨
        (ps = getParams node ∧ ps ≠ [] ∧ i + 1 = rp.length) ∨
        (∃ k nd, 1 ≤ k ∧ k ≤ keys.length ∧ i + 1 = rp.length + k ∧
          nodeAt node (keys.take k) = some nd ∧ ps = getParams nd ∧ ps ≠ [])
  | [], node, rp, pbs, m, hm, i, ps, hli => by
      rw [pbsAt_nil] at hm
      have hm2 := Option.some.inj hm
      subst hm2
      rcases lookupPbs_branchStep_cases hli with h | h
      · exact Or.inl h
      · exact Or.inr (Or.inl h)
  | key :: rest, node, rp, pbs, m, hm, i, ps, hli => by
      cases hchild : childAt node key with
      | none =>
          rw [pbsAt_cons_none rp pbs rest hchild] at hm
          exact absurd hm (by simp)
      | some child =>
          rw [pbsAt_cons_some rp pbs rest hchild] at hm
          have hchild1 : nodeAt node ((key :: rest).take 1) = some child := by
            simp [nodeAt_cons, hchild, nodeAt]
          by_cases hleaf : isLeafNode child
          · rw [if_pos hleaf] at hm
            by_cases hrest : rest.isEmpty
            · rw [if_pos hrest] at hm
              have hm2 := Option.some.inj hm
              subst hm2
              rcases lookupPbs_leafStep_cases hli with h | ⟨hps, hne, hieq⟩
              · rcases lookupPbs_branchStep_cases h with h2 | h2
                · exact Or.inl h2
                · exact Or.inr (Or.inl h2)
              · refine Or.inr (Or.inr ⟨1, child, le_refl 1, by simp, ?_, hchild1, hps, hne⟩)
                simp only [List.length_append, List.length_cons, List.length_nil] at hieq
                omega
            · rw [if_neg hrest] at hm
              exact absurd hm (by simp)
          · rw [if_neg hleaf] at hm
            rcases pbsAt_sound rest child (rp ++ [key]) (branchStep node rp pbs) m hm i ps hli
              with h | ⟨hps, hne, hieq⟩ | ⟨k, nd, hk1, hk2, hik, hnode, hps, hne⟩
            · rcases lookupPbs_branchStep_cases h with h2 | h2
              · exact Or.inl h2
              · exact Or.inr (Or.inl h2)
            · refine Or.inr (Or.inr ⟨1, child, le_refl 1, by simp, ?_, hchild1, hps, hne⟩)
              simp only [List.length_append, List.length_cons, List.length_nil] at hieq
              omega
            · refine Or.inr (Or.inr ⟨k + 1, nd, by omega, by simp; omega, ?_, ?_, hps, hne⟩)
              · simp only [List.length_append, List.length_cons, List.length_nil] at hik
                omega
              · rw [List.take_succ_cons, nodeAt_cons _ hchild]
                exact hnode

theorem branchRevalidateArgs_def (resourcePath scopePath : List String) (pbs : PBS) (p : PMap) :
    branchRevalidateArgs resourcePath scopePath pbs p =
      (jsOr (buildTagWithEmbeddedParams (scopePath ++ resourcePath) (shiftPbs pbs scopePath.length) p)
        (jsOr (scopePath.headD ("")) ("root")), ("max")) := rfl

theorem branchUpdateArg_def (resourcePath scopePath : List String) (pbs : PBS) (p : PMap) :
    branchUpdateArg resourcePath scopePath pbs p =
      jsOr (buildTagWithEmbeddedParams (scopePath ++ resourcePath) (shiftPbs pbs scopePath.length) p)
        (jsOr (scopePath.headD ("")) ("root")) := rfl

theorem jsOr_scoped_fallback (scopePath resourcePath : List String)
    (hseg : ∀ s ∈ scopePath ++ resourcePath, s ≠ ("")) :
    jsOr (joinSep ("/") (scopePath ++ resourcePath)) (jsOr (scopePath.headD ("")) ("root")) =
      if scopePath ++ resourcePath = [] then ("root")
      else joinSep ("/") (scopePath ++ resourcePath) := by
  by_cases hnil : scopePath ++ resourcePath = []
  · rw [if_pos hnil, hnil]
    have hsp : scopePath = [] := (List.append_eq_nil.mp hnil).1
    rw [hsp]
    rfl
  · rw [if_neg hnil]
    unfold jsOr
    rw [if_neg (joinSep_slash_ne_empty hnil hseg)]

/-! ### Claim theorems -/

/-- C1: on a leaf (embedded format), `cacheTag` hands the register-tags
primitive exactly this ordered list: the full scoped tag, the scoped
ancestors most-specific-first, the full unscoped tag, the unscoped ancestors
most-specific-first; reversing the ancestor list puts the render of the
longest strict prefix first; and the Scenario 3 instance registers exactly
the five expected tags in order. -/
theorem claim_cacheTag_registration_order :
    (∀ (resourcePath scopePath : List String) (pbs : PBS) (v : PMap),
      leafCacheTagTags resourcePath scopePath pbs v =
        buildTagWithEmbeddedParams (scopePath ++ resourcePath)
            (shiftPbs pbs scopePath.length) v
          :: ((buildAncestorTagsWithEmbeddedParams (scopePath ++ resourcePath)
                (shiftPbs pbs scopePath.length) v).reverse
            ++ buildTagWithEmbeddedParams resourcePath pbs v
              :: (buildAncestorTagsWithEmbeddedParams resourcePath pbs v).reverse)) ∧
    (∀ (path : List String) (pbs : PBS) (v : PMap) (k : Nat), k < path.length - 1 →
      ((buildAncestorTagsWithEmbeddedParams path pbs v).reverse)[k]? =
        some (buildTagWithEmbeddedParams (path.take (path.length - 1 - k)) pbs v)) ∧
    leafCacheTagTags ["users", "byId"] ["admin"] [(1, ["id"])] [("id", "123")] =
      ["admin/users/byId:123", "admin/users", "admin", "users/byId:123", "users"] := by
  refine ⟨fun resourcePath scopePath pbs v => rfl, ?_, by decide⟩
  intro path pbs v k hk
  rw [List.getElem?_reverse (by rw [length_buildAncestorTagsWithEmbeddedParams]; omega),
    length_buildAncestorTagsWithEmbeddedParams,
    getElem?_buildAncestorTagsWithEmbeddedParams path pbs v (by omega)]
  have harith : path.length - 1 - 1 - k + 1 = path.length - 1 - k := by omega
  rw [harith]

/-- C1 witness: the second conjunct instantiated at a concrete path shows the
reversed ancestor block starts with the longest strict prefix. -/
theorem claim_cacheTag_registration_order_witness :
    ((buildAncestorTagsWithEmbeddedParams ["a", "b", "c"] [] []).reverse)[0]? = some ("a/b") :=
  (claim_cacheTag_registration_order.2.1 ["a", "b", "c"] [] [] 0 (by decide)).trans (by decide)

/-- C2: for every non-empty path of length n, both ancestor builders return
exactly n - 1 tags ordered shortest prefix first, the i-th (0-based) being
the rendering of the first i + 1 segments in the respective format; a
single-segment path yields the empty list. -/
theorem claim_ancestor_enumeration (path : List String) (pbs : PBS) (params : PMap)
    (hne : path ≠ []) :
    (buildAncestorTags path).length = path.length - 1 ∧
    (buildAncestorTagsWithEmbeddedParams path pbs params).length = path.length - 1 ∧
    (∀ i, i < path.length - 1 →
      (buildAncestorTags path)[i]? = some (joinSep ("/") (path.take (i + 1))) ∧
      (buildAncestorTagsWithEmbeddedParams path pbs params)[i]? =
        some (buildTagWithEmbeddedParams (path.take (i + 1)) pbs params)) ∧
    (path.length = 1 →
      buildAncestorTags path = [] ∧
        buildAncestorTagsWithEmbeddedParams path pbs params = []) := by
  refine ⟨length_buildAncestorTags path,
    length_buildAncestorTagsWithEmbeddedParams path pbs params,
    fun i hi => ⟨getElem?_buildAncestorTags path hi,
      getElem?_buildAncestorTagsWithEmbeddedParams path pbs params hi⟩,
    fun h1 => ⟨?_, ?_⟩⟩
  · exact List.length_eq_zero.mp (by rw [length_buildAncestorTags, h1])
  · exact List.length_eq_zero.mp
      (by rw [length_buildAncestorTagsWithEmbeddedParams, h1])

/-- C2 witness: Scenario 2 instance. -/
theorem claim_ancestor_enumeration_witness :
    (buildAncestorTags ["feedback", "threads", "byId"])[0]? = some ("feedback") ∧
    (buildAncestorTags ["feedback", "threads", "byId"])[1]? = some ("feedback/threads") := by
  have h := claim_ancestor_enumeration ["feedback", "threads", "byId"] [] [] (by decide)
  exact ⟨((h.2.2.1 0 (by decide)).1).trans (by decide),
    ((h.2.2.1 1 (by decide)).1).trans (by decide)⟩

/-- C3: the embedded renderer maps segment i to the bare segment when none of
its bound parameter names has a supplied value, else to the segment followed
by a colon and the supplied values in declaration order, then joins with a
slash; Scenario 4 instance included. -/
theorem claim_embedded_renderer :
    (∀ (path : List String) (pbs : PBS) (params : PMap),
      buildTagWithEmbeddedParams path pbs params =
        joinSep ("/") ((List.range path.length).map (fun i =>
          if ((lookupPbs pbs i).getD []).filterMap (fun n => lookupP params n) = [] then
            path.getD i ("")
          else
            path.getD i ("") ++ ":" ++
              joinSep (":")
                (((lookupPbs pbs i).getD []).filterMap (fun n => lookupP params n))))) ∧
    buildTagWithEmbeddedParams ["userPrivateData", "myWorkspaces", "byWorkspaceId"]
      [(0, ["userId"]), (2, ["workspaceId"])] [("userId", "u1")] =
      "userPrivateData:u1/myWorkspaces/byWorkspaceId" := by
  refine ⟨?_, by decide⟩
  intro path pbs params
  unfold buildTagWithEmbeddedParams
  rw [renderSegmentsFrom_eq_map_range]
  congr 1
  apply List.map_congr_left
  intro j hj
  rw [renderSegment_def]
  simp only [Nat.zero_add]
  by_cases hv : ((lookupPbs pbs j).getD []).filterMap (fun p => lookupP params p) = []
  · rw [if_pos (by simp [hv]), if_pos hv]
  · rw [if_neg (by simp [hv]), if_neg hv]

/-- C4: flat-format buildTag joins the segments with a slash and, when the
parameter map is non-empty, appends a colon and the values (in map insertion
order, i.e. declaration order across the accumulated path) joined by colons;
Scenario 1 instance included. -/
theorem claim_buildTag_flat_format :
    (∀ (path : List String) (params : PMap),
      buildTag path params =
        if params = [] then joinSep ("/") path
        else joinSep ("/") path ++ ":" ++ joinSep (":") (params.map Prod.snd)) ∧
    buildTag ["users", "byId"] [("id", "123")] = "users/byId:123" := by
  refine ⟨?_, by decide⟩
  intro path params
  cases params with
  | nil => simp [buildTag]
  | cons e rest => simp [buildTag]

/-- C5 counterexample: a string is not an object, yet `isLeafNode` classifies
it as NOT a leaf (the claim says such values are classified as leaves). -/
theorem claim_nonstructured_leaf_counterexample :
    isLeafNode (SchemaVal.vstr ("not-an-object")) = false := rfl

/-- C5 (amended): for every value that is not a non-null object, classification
is total, the extracted parameter list and child-key list are both empty, but
`isLeafNode` returns false — the walker therefore treats such a value as an
empty BRANCH, not as an empty leaf. -/
theorem claim_nonstructured_leaf_amended (v : SchemaVal) (hv : isUnstructured v = true) :
    isLeafNode v = false ∧ getParams v = [] ∧ getChildKeys v = [] := by
  cases v <;> simp_all [isUnstructured, isLeafNode, getParams, getChildKeys]

/-- C5 witness: the amended claim applied to the number 42. -/
theorem claim_nonstructured_leaf_amended_witness :
    isLeafNode (SchemaVal.vnum 42) = false ∧ getParams (SchemaVal.vnum 42) = [] ∧
      getChildKeys (SchemaVal.vnum 42) = [] :=
  claim_nonstructured_leaf_amended (SchemaVal.vnum 42) rfl

/-- C6: a branch invoked with no parameters passes the joined (scope-prefixed)
path to the invalidation primitive, or the literal fallback root tag when the
full path is empty, always with the fixed staleness profile; includes the
Scenario 5 instance, the scoped-root instance (scope name alone) and the
unscoped-root fallback instance. Segments are assumed non-empty, as §4.3 of
the spec requires. -/
theorem claim_branch_invalidation_tag :
    (∀ (resourcePath scopePath : List String) (pbs : PBS),
      (∀ s ∈ scopePath ++ resourcePath, s ≠ ("")) →
      branchRevalidateArgs resourcePath scopePath pbs [] =
        ((if scopePath ++ resourcePath = [] then ("root")
          else joinSep ("/") (scopePath ++ resourcePath)), ("max")) ∧
      branchUpdateArg resourcePath scopePath pbs [] =
        (if scopePath ++ resourcePath = [] then ("root")
          else joinSep ("/") (scopePath ++ resourcePath))) ∧
    (∀ (resourcePath : List String) (pbs : PBS),
      (∀ s ∈ resourcePath, s ≠ ("")) →
      unscopedBranchRevalidateArgs resourcePath pbs [] =
        ((if resourcePath = [] then ("root") else joinSep ("/") resourcePath), ("max")) ∧
      unscopedBranchUpdateArg resourcePath pbs [] =
        (if resourcePath = [] then ("root") else joinSep ("/") resourcePath)) ∧
    branchRevalidateArgs ["users"] ["admin"] [] [] = ("admin/users", "max") ∧
    branchRevalidateArgs [] ["admin"] [] [] = ("admin", "max") ∧
    unscopedBranchRevalidateArgs [] [] [] = ("root", "max") := by
  refine ⟨?_, ?_, by decide, by decide, by decide⟩
  · intro resourcePath scopePath pbs hseg
    have hfall := jsOr_scoped_fallback scopePath resourcePath hseg
    constructor
    · rw [branchRevalidateArgs_def, buildTagWithEmbeddedParams_no_params, hfall]
    · rw [branchUpdateArg_def, buildTagWithEmbeddedParams_no_params, hfall]
  · intro resourcePath pbs hseg
    have hfall : jsOr (joinSep ("/") resourcePath) ("root") =
        if resourcePath = [] then ("root") else joinSep ("/") resourcePath := by
      by_cases hnil : resourcePath = []
      · rw [if_pos hnil, hnil]
        rfl
      · rw [if_neg hnil]
        unfold jsOr
        rw [if_neg (joinSep_slash_ne_empty hnil hseg)]
    constructor
    · show (jsOr (buildTagWithEmbeddedParams resourcePath pbs []) ("root"), ("max" : String)) = _
      rw [buildTagWithEmbeddedParams_no_params, hfall]
    · show jsOr (buildTagWithEmbeddedParams resourcePath pbs []) ("root") = _
      rw [buildTagWithEmbeddedParams_no_params, hfall]

/-- C6 witness: the general statements applied to the Scenario 5 path and to
the unscoped root. -/
theorem claim_branch_invalidation_tag_witness :
    (branchRevalidateArgs ["users"] ["admin"] [(1, ["id"])] [] =
        ((if (["admin", "users"] : List String) = [] then ("root")
          else joinSep ("/") ["admin", "users"]), ("max")) ∧
      branchUpdateArg ["users"] ["admin"] [(1, ["id"])] [] =
        (if (["admin", "users"] : List String) = [] then ("root")
          else joinSep ("/") ["admin", "users"])) ∧
    unscopedBranchRevalidateArgs [] [] [] =
        ((if ([] : List String) = [] then ("root") else joinSep ("/") []), ("max")) ∧
      unscopedBranchUpdateArg [] [] [] =
        (if ([] : List String) = [] then ("root") else joinSep ("/") []) :=
  ⟨claim_branch_invalidation_tag.1 ["users"] ["admin"] [(1, ["id"])] (by decide),
    claim_branch_invalidation_tag.2.1 [] [] (by decide)⟩

/-- C7: during tree construction the parameters declared by a node are bound to the
last segment index of the current path (branch and leaf steps alike); a
binding present when the walker passes a map downward is still present,
unchanged, in the map captured by any reachable descendant; and in a walk
from the root, every binding of the final map is exactly the parameter list
declared by the schema node at that depth. -/
theorem claim_param_binding_invariant :
    (∀ (node : SchemaVal) (resourcePath : List String) (pbs : PBS),
      getParams node ≠ [] → resourcePath ≠ [] →
      lookupPbs (branchStep node resourcePath pbs) (resourcePath.length - 1) =
        some (getParams node)) ∧
    (∀ (leafSchema : SchemaVal) (childPath : List String) (pbs : PBS),
      getParams leafSchema ≠ [] →
      lookupPbs (leafStep leafSchema childPath pbs) (childPath.length - 1) =
        some (getParams leafSchema)) ∧
    (∀ (keys : List String) (node : SchemaVal) (resourcePath : List String) (pbs m : PBS),
      pbsAt node resourcePath pbs keys = some m →
      (∀ e ∈ pbs, e.1 + 1 < resourcePath.length) →
      ∀ i ps, lookupPbs pbs i = some ps → lookupPbs m i = some ps) ∧
    (∀ (schema : SchemaVal) (keys : List String) (m : PBS),
      pbsAt schema [] [] keys = some m →
      ∀ i ps, lookupPbs m i = some ps →
        ps ≠ [] ∧ i < keys.length ∧
        ∃ nd, nodeAt schema (keys.take (i + 1)) = some nd ∧ ps = getParams nd) := by
  refine ⟨branchStep_binds, leafStep_binds, pbsAt_preserves, ?_⟩
  intro schema keys m hm i ps hl
  rcases pbsAt_sound keys schema [] [] m hm i ps hl
    with h | ⟨_, _, hieq⟩ | ⟨k, nd, hk1, hk2, hik, hnode, hps, hne⟩
  · exact absurd h (by simp [lookupPbs])
  · exact absurd hieq (by simp)
  · have hk : k = i + 1 := by
      simp only [List.length_nil, Nat.zero_add] at hik
      omega
    rw [hk] at hnode hk2
    exact ⟨hne, by omega, nd, hnode, hps⟩

/-- C7 witness: the four parts applied to concrete schemas — a parameterized
branch, a parameterized leaf, a walk that preserves an inherited binding, and
a full root walk of the users/byId schema. -/
theorem claim_param_binding_invariant_witness :
    lookupPbs
        (branchStep
          (SchemaVal.vobj [(("_params"), SchemaVal.varr ["uid"]), (("kids"), SchemaVal.vobj [])])
          ["users"] []) 0 = some ["uid"] ∧
    lookupPbs
        (leafStep (SchemaVal.vobj [(("_params"), SchemaVal.varr ["id"])]) ["users", "byId"] []) 1 =
      some ["id"] ∧
    lookupPbs [(0, ["x"])] 0 = some ["x"] ∧
    ((["id"] : List String) ≠ [] ∧ 1 < 2 ∧
      ∃ nd,
        nodeAt
            (SchemaVal.vobj [(("users"),
              SchemaVal.vobj [(("list"), SchemaVal.vobj []),
                (("byId"), SchemaVal.vobj [(("_params"), SchemaVal.varr ["id"])])])])
            (List.take 2 ["users", "byId"]) = some nd ∧
          (["id"] : List String) = getParams nd) :=
  ⟨claim_param_binding_invariant.1
      (SchemaVal.vobj [(("_params"), SchemaVal.varr ["uid"]), (("kids"), SchemaVal.vobj [])])
      ["users"] [] (by decide) (by decide),
    claim_param_binding_invariant.2.1
      (SchemaVal.vobj [(("_params"), SchemaVal.varr ["id"])]) ["users", "byId"] [] (by decide),
    claim_param_binding_invariant.2.2.1 [] (SchemaVal.vobj []) ["a", "b"] [(0, ["x"])]
      [(0, ["x"])] rfl (by decide) 0 ["x"] rfl,
    claim_param_binding_invariant.2.2.2
      (SchemaVal.vobj [(("users"),
        SchemaVal.vobj [(("list"), SchemaVal.vobj []),
          (("byId"), SchemaVal.vobj [(("_params"), SchemaVal.varr ["id"])])])])
      ["users", "byId"] [(1, ["id"])] rfl 1 ["id"] rfl⟩

/-- C8: for a fixed path and paramsBySegment, rendering with a sub-map of the
values never yields a longer embedded tag than rendering with the full map. -/
theorem claim_submap_render_monotonic (path : List String) (pbs : PBS) (W V : PMap)
    (hsub : ∀ n val, lookupP W n = some val → lookupP V n = some val) :
    (buildTagWithEmbeddedParams path pbs W).length ≤
      (buildTagWithEmbeddedParams path pbs V).length := by
  unfold buildTagWithEmbeddedParams
  exact length_joinSep_le_of_forall2 ("/") (renderSegmentsFrom_forall2_le pbs hsub path 0)

/-- C8 witness: the Scenario 4 path with a one-value sub-map of a two-value
map. -/
theorem claim_submap_render_monotonic_witness :
    (buildTagWithEmbeddedParams ["userPrivateData", "myWorkspaces", "byId"]
        [(0, ["userId"]), (2, ["workspaceId"])] [("userId", "u1")]).length ≤
      (buildTagWithEmbeddedParams ["userPrivateData", "myWorkspaces", "byId"]
        [(0, ["userId"]), (2, ["workspaceId"])]
        [("userId", "u1"), ("workspaceId", "w1")]).length :=
  claim_submap_render_monotonic _ _ _ _ (by
    intro n val h
    unfold lookupP at h
    split at h
    next hn =>
      unfold lookupP
      rw [if_pos hn]
      exact h
    next hn => exact absurd h (by simp [lookupP]))

/-- C9: the embedded tag depends only on the values of names bound to an index
below the path length — value maps agreeing there render identically — and an
entry for a name not bound below the path length never changes the output. -/
theorem claim_embedded_depends_only_on_bound :
    (∀ (path : List String) (pbs : PBS) (W V : PMap),
      (∀ i, i < path.length → ∀ n ∈ (lookupPbs pbs i).getD [], lookupP W n = lookupP V n) →
      buildTagWithEmbeddedParams path pbs W = buildTagWithEmbeddedParams path pbs V) ∧
    (∀ (path : List String) (pbs : PBS) (W : PMap) (n val : String),
      (∀ i, i < path.length → n ∉ (lookupPbs pbs i).getD []) →
      buildTagWithEmbeddedParams path pbs ((n, val) :: W) =
        buildTagWithEmbeddedParams path pbs W) := by
  have hmain : ∀ (path : List String) (pbs : PBS) (W V : PMap),
      (∀ i, i < path.length → ∀ nm ∈ (lookupPbs pbs i).getD [], lookupP W nm = lookupP V nm) →
      buildTagWithEmbeddedParams path pbs W = buildTagWithEmbeddedParams path pbs V := by
    intro path pbs W V h
    unfold buildTagWithEmbeddedParams
    rw [renderSegmentsFrom_congr pbs path 0 (fun i h1 h2 nm hnm => h i (by omega) nm hnm)]
  refine ⟨hmain, ?_⟩
  intro path pbs W n val h
  apply hmain
  intro i hi nm hnm
  have hne : nm ≠ n := fun hc => h i hi (hc ▸ hnm)
  show (if n = nm then some val else lookupP W nm) = lookupP W nm
  rw [if_neg (fun hc => hne hc.symm)]

/-- C9 witness: both parts applied to a one-segment path with no bound
parameter names. -/
theorem claim_embedded_depends_only_on_bound_witness :
    buildTagWithEmbeddedParams ["users"] [] [("id", "123")] =
        buildTagWithEmbeddedParams ["users"] [] [] ∧
      buildTagWithEmbeddedParams ["users"] [] [("x", "1")] =
        buildTagWithEmbeddedParams ["users"] [] [] :=
  ⟨claim_embedded_depends_only_on_bound.1 ["users"] [] [("id", "123")] []
      (by intro i hi nm hnm; simp [lookupPbs] at hnm),
    claim_embedded_depends_only_on_bound.2 ["users"] [] [] ("x") ("1")
      (by intro i hi; simp [lookupPbs])⟩

end NextCoolCache
